import Mathlib

/-!
Shallow embedding of the entity-resolution and query-construction pipeline of
`src/coach_chatbot.py` (a Bundesliga coach chatbot).

Strings are modelled as `List Char`.  Python `str.lower` is modelled at the
character level (ASCII range, which covers every catalog label and user input
the program manipulates); Python `str.strip` and the whitespace class `\s` are
modelled over the six ASCII whitespace characters Python recognises.
HTTP transports are abstracted: the SPARQL result rows are passed in as data,
and a transport failure is an `Except.error`.
-/

abbrev Str := List Char

/-- The apostrophe character. -/
def apos : Char := Char.ofNat 39

/-- The backslash character. -/
def bslash : Char := '\\'

/-- The double-quote character. -/
def dquote : Char := Char.ofNat 34

/-- Python whitespace (as recognised by `str.strip` and `\s` on ASCII text):
space, tab, newline, carriage return, vertical tab, form feed. -/
def pyIsSpace (c : Char) : Bool :=
  c == ' ' || c == Char.ofNat 9 || c == Char.ofNat 10 || c == Char.ofNat 13 ||
  c == Char.ofNat 11 || c == Char.ofNat 12

/-- Python `str.lower`, per character (ASCII range). -/
def pyToLower (c : Char) : Char :=
  if 65 ≤ c.toNat ∧ c.toNat ≤ 90 then Char.ofNat (c.toNat + 32) else c

/-- Lower-case a whole string (model of Python `str.lower`). -/
def lowerStr (s : Str) : Str := s.map pyToLower

/-- Drop leading whitespace characters. -/
def dropLeading : Str → Str
  | [] => []
  | c :: t => if pyIsSpace c then dropLeading t else c :: t

/-- Python `str.strip`: remove trailing whitespace, then leading whitespace
(the order is immaterial; this one keeps the head of the result exposed). -/
def pyStrip (s : Str) : Str :=
  dropLeading ((dropLeading s.reverse).reverse)

/-- Does `s` start with `pre`? -/
def startsWithL : Str → Str → Bool
  | _, [] => true
  | [], _ :: _ => false
  | a :: s, b :: t => a == b && startsWithL s t

/-- Does `s` end with `tail`? -/
def endsWithL (s tail : Str) : Bool :=
  startsWithL s.reverse tail.reverse

/-- Python substring containment `needle in hay`. -/
def containsSub : Str → Str → Bool
  | [], needle => needle.isEmpty
  | h :: t, needle => startsWithL (h :: t) needle || containsSub t needle

/-- The effect of `re.sub(r"(?:'s|s)$", "", t)`: remove one trailing `'s`
(checked first) or one trailing bare `s`, if present. -/
def stripPoss (t : Str) : Str :=
  if endsWithL t [apos, 's'] then t.dropLast.dropLast
  else if endsWithL t ['s'] then t.dropLast
  else t

/-- `normalize_text` from the source: lowercase, strip surrounding whitespace,
strip one possessive/plural suffix. -/
def normalize_text (text : Str) : Str :=
  stripPoss (pyStrip (lowerStr text))

/-- A catalog table: association list from normalized key to canonical label,
in Python-dict insertion order. -/
abbrev Table := List (Str × Str)

/-- Python dict assignment `d[k] = v`: overwrite in place if the key exists
(keeping its position), otherwise append. -/
def dictInsert (d : Table) (k v : Str) : Table :=
  if d.any (fun p => p.1 == k) then
    d.map (fun p => if p.1 = k then (k, v) else p)
  else d ++ [(k, v)]

/-- One SPARQL result row of `query_wikidata_for_names`.  `clubLabel` and
`cityLabel` are required patterns of the query, the alt labels are OPTIONAL. -/
structure NameRow where
  clubLabel : Str
  altClubLabel : Option Str
  cityLabel : Str
  altCityLabel : Option Str

/-- The catalog-building loop body of `query_wikidata_for_names`: the Python
truthiness guards `if club_label:` etc. skip empty labels. -/
def addNameRow (acc : Table × Table) (item : NameRow) : Table × Table :=
  let clubs :=
    if item.clubLabel.isEmpty then acc.1
    else dictInsert acc.1 (normalize_text item.clubLabel) item.clubLabel
  let clubs :=
    match item.altClubLabel with
    | some a => if a.isEmpty then clubs else dictInsert clubs (normalize_text a) item.clubLabel
    | none => clubs
  let cities :=
    if item.cityLabel.isEmpty then acc.2
    else dictInsert acc.2 (normalize_text item.cityLabel) item.cityLabel
  let cities :=
    match item.altCityLabel with
    | some a => if a.isEmpty then cities else dictInsert cities (normalize_text a) item.cityLabel
    | none => cities
  (clubs, cities)

/-- `query_wikidata_for_names`, with the HTTP transport abstracted away:
build the (clubs, cities) tables from the parsed result rows. -/
def query_wikidata_for_names (rows : List NameRow) : Table × Table :=
  rows.foldl addNameRow ([], [])

/-- The literal `"pauli"`. -/
def pauliL : Str := ['p', 'a', 'u', 'l', 'i']

/-- The literal `"st. pauli"`. -/
def stPauliL : Str := ['s', 't', '.', ' ', 'p', 'a', 'u', 'l', 'i']

/-- `extract_entity_from_input` from the source.  `some (label, true)` is a
club match, `some (label, false)` a city match, `none` is `(None, None)`. -/
def extract_entity_from_input (user_input : Str) (clubs cities : Table) :
    Option (Str × Bool) :=
  let u := normalize_text user_input
  let special : Option (Str × Bool) :=
    if containsSub u pauliL then
      (clubs.find? (fun p => containsSub p.1 stPauliL)).map (fun p => (p.2, true))
    else none
  match special with
  | some r => some r
  | none =>
    match clubs.find? (fun p => containsSub u p.1) with
    | some p => some (p.2, true)
    | none => (cities.find? (fun p => containsSub u p.1)).map (fun p => (p.2, false))

/-- One character of `text.replace('\\', '\\\\')`. -/
def escBack (c : Char) : Str :=
  if c = bslash then [bslash, bslash] else [c]

/-- One character of `escaped.replace('"', '\\"')`. -/
def escQuote (c : Char) : Str :=
  if c = dquote then [bslash, dquote] else [c]

/-- Both escaping passes applied to one character. -/
def escChar (c : Char) : Str :=
  (escBack c).flatMap escQuote

/-- The replacement text produced for each whitespace run: two backslashes,
then `s`, then `+`. -/
def wsTok : Str := [bslash, bslash, 's', '+']

/-- The effect of `re.sub(r'\s+', r'\\\\s+', escaped)`: replace every maximal
run of whitespace with `wsTok`. -/
def wsRuns : Str → Str
  | [] => []
  | c :: t =>
    if pyIsSpace c then
      match t with
      | [] => wsTok
      | d :: t2 => if pyIsSpace d then wsRuns (d :: t2) else wsTok ++ wsRuns (d :: t2)
    else c :: wsRuns t

/-- `prepare_regex_for_sparql` from the source: escape backslashes, then
double quotes, then collapse whitespace runs into the `\\s+` token. -/
def prepare_regex_for_sparql (text : Str) : Str :=
  wsRuns ((text.flatMap escBack).flatMap escQuote)

/-- One SPARQL result row of `query_wikidata_for_coach`. -/
structure Binding where
  clubLabel : Str
  coachLabel : Str
  cityLabel : Str
deriving DecidableEq

/-- `query_wikidata_for_coach` from the source, with the HTTP transport
abstracted: `resp` is either a transport failure or the parsed bindings.
`none` models the `(None, None)` not-found return. -/
def query_wikidata_for_coach (entity_label : Str) (is_club : Bool)
    (resp : Except Unit (List Binding)) : Option (Str × Str) :=
  match resp with
  | Except.error _ => none
  | Except.ok bindings =>
    match bindings with
    | [] => none
    | b0 :: rest =>
      if is_club && (lowerStr entity_label == pauliL || lowerStr entity_label == stPauliL) then
        match (b0 :: rest).find? (fun e => containsSub (lowerStr e.clubLabel) stPauliL) with
        | some e => some (e.clubLabel, e.coachLabel)
        | none => some (b0.clubLabel, b0.coachLabel)
      else some (b0.clubLabel, b0.coachLabel)

/-- Is the first character (if any) not whitespace? -/
def headNonWS (s : Str) : Bool :=
  match s with
  | [] => true
  | c :: _ => !pyIsSpace c

/-- Does the string avoid ending in `s` or in whitespace?  (The inputs on
which normalization behaves idempotently.) -/
def normTailOk (r : Str) : Bool :=
  match r.reverse with
  | [] => true
  | c :: _ => !(c == 's') && !pyIsSpace c

/-- No character of `s` is whitespace. -/
def noWS (s : Str) : Bool := s.all (fun c => !pyIsSpace c)

/-- Every character of `s` is whitespace. -/
def allWS (s : Str) : Bool := s.all pyIsSpace

/-- Either the lookup found nothing, or the found entry carries value `L`. -/
def findValIsOrNone (o : Option (Str × Str)) (L : Str) : Bool :=
  match o with
  | none => true
  | some p => p.2 == L

/-- Modelled from the spec's words (§4.1): strip leading/trailing whitespace,
written with the library `dropWhile`. -/
def stripSpec (s : Str) : Str :=
  ((s.reverse.dropWhile pyIsSpace).reverse).dropWhile pyIsSpace

/-- Modelled from the spec's words (§4.1): remove one trailing possessive or
plural suffix, the `'s` alternative taking precedence over the bare `s`. -/
def stripSuffixSpec (t : Str) : Str :=
  if t.reverse.take 2 = ['s', apos] then t.dropLast.dropLast
  else if t.reverse.take 1 = ['s'] then t.dropLast
  else t

/-- Modelled from the spec's words (§4.1): lower-case, strip surrounding
whitespace, strip one possessive/plural suffix. -/
def normalizeSpec (s : Str) : Str :=
  stripSuffixSpec (stripSpec (s.map Char.toLower))

/-! ### Helper lemmas -/

theorem toNat_ofNat_of_lt {n : Nat} (h : n < 55296) : (Char.ofNat n).toNat = n := by
  rw [Char.ofNat, dif_pos (Or.inl h)]
  rfl

theorem pyToLower_idem (c : Char) : pyToLower (pyToLower c) = pyToLower c := by
  unfold pyToLower
  by_cases h : 65 ≤ c.toNat ∧ c.toNat ≤ 90
  · rw [if_pos h]
    have ht : (Char.ofNat (c.toNat + 32)).toNat = c.toNat + 32 :=
      toNat_ofNat_of_lt (by omega)
    rw [if_neg (by rw [ht]; omega)]
  · rw [if_neg h, if_neg h]

theorem pyToLower_fix_of_mem {s : Str} {c : Char} (h : c ∈ lowerStr s) :
    pyToLower c = c := by
  unfold lowerStr at h
  obtain ⟨a, _, rfl⟩ := List.mem_map.mp h
  exact pyToLower_idem a

theorem mem_dropLeading {c : Char} : ∀ {s : Str}, c ∈ dropLeading s → c ∈ s := by
  intro s
  induction s with
  | nil => exact fun h => h
  | cons a t ih =>
    intro h
    unfold dropLeading at h
    by_cases ha : pyIsSpace a
    · rw [if_pos ha] at h
      exact List.mem_cons_of_mem a (ih h)
    · rw [if_neg ha] at h
      exact h

theorem mem_pyStrip {c : Char} {s : Str} (h : c ∈ pyStrip s) : c ∈ s := by
  unfold pyStrip at h
  have h1 := mem_dropLeading h
  rw [List.mem_reverse] at h1
  have h2 := mem_dropLeading h1
  rw [List.mem_reverse] at h2
  exact h2

theorem mem_stripPoss {c : Char} {s : Str} (h : c ∈ stripPoss s) : c ∈ s := by
  unfold stripPoss at h
  split at h
  · exact List.dropLast_subset _ (List.dropLast_subset _ h)
  · split at h
    · exact List.dropLast_subset _ h
    · exact h

theorem lowerStr_normalize (s : Str) : lowerStr (normalize_text s) = normalize_text s := by
  have hmem : ∀ c ∈ normalize_text s, pyToLower c = c := by
    intro c hc
    have hc2 : c ∈ lowerStr s := mem_pyStrip (mem_stripPoss hc)
    exact pyToLower_fix_of_mem hc2
  exact (List.map_congr_left hmem).trans (List.map_id _)

theorem headNonWS_dropLeading (s : Str) : headNonWS (dropLeading s) = true := by
  induction s with
  | nil => rfl
  | cons a t ih =>
    unfold dropLeading
    by_cases ha : pyIsSpace a
    · rw [if_pos ha]
      exact ih
    · rw [if_neg ha]
      simp [headNonWS, ha]

theorem headNonWS_pyStrip (s : Str) : headNonWS (pyStrip s) = true :=
  headNonWS_dropLeading _

theorem headNonWS_dropLast {s : Str} (h : headNonWS s = true) :
    headNonWS s.dropLast = true := by
  cases s with
  | nil => rfl
  | cons a t =>
    cases t with
    | nil => rfl
    | cons b t2 => exact h

theorem headNonWS_stripPoss {s : Str} (h : headNonWS s = true) :
    headNonWS (stripPoss s) = true := by
  unfold stripPoss
  split
  · exact headNonWS_dropLast (headNonWS_dropLast h)
  · split
    · exact headNonWS_dropLast h
    · exact h

theorem headNonWS_normalize (s : Str) : headNonWS (normalize_text s) = true :=
  headNonWS_stripPoss (headNonWS_pyStrip _)

theorem dropLeading_eq_self {s : Str} (h : headNonWS s = true) : dropLeading s = s := by
  cases s with
  | nil => rfl
  | cons a t =>
    unfold dropLeading
    rw [if_neg]
    intro ha
    simp [headNonWS, ha] at h

theorem pyStrip_eq_self {s : Str} (h1 : headNonWS s = true)
    (h2 : headNonWS s.reverse = true) : pyStrip s = s := by
  unfold pyStrip
  rw [dropLeading_eq_self h2, List.reverse_reverse, dropLeading_eq_self h1]

theorem tail_facts {r : Str} (h : normTailOk r = true) :
    endsWithL r ['s'] = false ∧ endsWithL r [apos, 's'] = false ∧
    headNonWS r.reverse = true := by
  unfold normTailOk at h
  unfold endsWithL
  revert h
  cases hr : r.reverse with
  | nil => intro h; decide
  | cons c t =>
    intro h
    have h2 : (!(c == 's') && !pyIsSpace c) = true := h
    simp only [Bool.and_eq_true, Bool.not_eq_true'] at h2
    refine ⟨?_, ?_, ?_⟩
    · simp [startsWithL, h2.1]
    · simp [startsWithL, h2.1]
    · simp [headNonWS, h2.2]

theorem stripPoss_eq_self {r : Str} (h1 : endsWithL r [apos, 's'] = false)
    (h2 : endsWithL r ['s'] = false) : stripPoss r = r := by
  unfold stripPoss
  simp [h1, h2]

/-! ### Claims -/

/-- C2 (counterexample): normalization is not idempotent on the source code:
for the input `"ss"` one trailing `s` is stripped per application, so
`normalize(normalize("ss")) = "" ≠ "s" = normalize("ss")`. -/
theorem c2_normalize_not_idempotent :
    ¬ (normalize_text (normalize_text ['s', 's']) = normalize_text ['s', 's']) := by
  decide

/-- C2 (amended): normalization is idempotent on every string whose normalized
form neither ends with the letter `s` nor with a whitespace character. -/
theorem c2_normalize_idempotent_amended (s : Str)
    (h : normTailOk (normalize_text s) = true) :
    normalize_text (normalize_text s) = normalize_text s := by
  obtain ⟨e1, e2, e3⟩ := tail_facts h
  have hl : lowerStr (normalize_text s) = normalize_text s := lowerStr_normalize s
  have hh : headNonWS (normalize_text s) = true := headNonWS_normalize s
  show stripPoss (pyStrip (lowerStr (normalize_text s))) = normalize_text s
  rw [hl, pyStrip_eq_self hh e3, stripPoss_eq_self e2 e1]

/-- C2 (witness): the amended idempotence theorem applied to `"bayern"`. -/
theorem c2_normalize_idempotent_amended_witness :
    normTailOk (normalize_text ['b', 'a', 'y', 'e', 'r', 'n']) = true ∧
    normalize_text (normalize_text ['b', 'a', 'y', 'e', 'r', 'n']) =
      normalize_text ['b', 'a', 'y', 'e', 'r', 'n'] :=
  ⟨by decide, c2_normalize_idempotent_amended ['b', 'a', 'y', 'e', 'r', 'n'] (by decide)⟩

/-- C8: a transport failure of the coach query makes `query_wikidata_for_coach`
return the not-found value `none`; no error is propagated. -/
theorem c8_transport_error_swallowed (label : Str) (is_club : Bool) :
    query_wikidata_for_coach label is_club (Except.error ()) = none := rfl

/-- C9: an empty binding list makes `query_wikidata_for_coach` return the
not-found value `none`; no exception is raised. -/
theorem c9_empty_bindings_not_found (label : Str) (is_club : Bool) :
    query_wikidata_for_coach label is_club (Except.ok []) = none := rfl

/-- C1: whenever the normalized user input contains `"pauli"` and the club
table has a key containing `"st. pauli"`, resolution returns the canonical
label of the first such key as a club match — for every club table and every
city table, so neither the general club scan nor the city table influences
the result. -/
theorem c1_pauli_special_case (input : Str) (clubs cities : Table) (entry : Str × Str)
    (hp : containsSub (normalize_text input) pauliL = true)
    (hf : clubs.find? (fun p => containsSub p.1 stPauliL) = some entry) :
    extract_entity_from_input input clubs cities = some (entry.2, true) := by
  unfold extract_entity_from_input
  simp [hp, hf]

/-- C1 (witness): the special case fires on input `"pauli"` even though the
city table also carries a key `"pauli"`. -/
theorem c1_pauli_special_case_witness :
    extract_entity_from_input pauliL [(stPauliL, ['F'])] [(pauliL, ['H'])] =
      some (['F'], true) :=
  c1_pauli_special_case pauliL [(stPauliL, ['F'])] [(pauliL, ['H'])] (stPauliL, ['F'])
    (by decide) (by decide)

/-- C4: with a non-empty binding list, a club entity and a resolved label that
lower-cases to `"pauli"` or `"st. pauli"`, the coordinator returns the first
binding whose club label contains `"st. pauli"` case-insensitively, and falls
back to the first binding when no binding contains it. -/
theorem c4_pauli_disambiguation (label : Str) (bs : List Binding) (b0 : Binding)
    (h0 : bs.head? = some b0)
    (hl : lowerStr label = pauliL ∨ lowerStr label = stPauliL) :
    (∀ e, bs.find? (fun x => containsSub (lowerStr x.clubLabel) stPauliL) = some e →
        query_wikidata_for_coach label true (Except.ok bs) =
          some (e.clubLabel, e.coachLabel)) ∧
    (bs.find? (fun x => containsSub (lowerStr x.clubLabel) stPauliL) = none →
        query_wikidata_for_coach label true (Except.ok bs) =
          some (b0.clubLabel, b0.coachLabel)) := by
  cases bs with
  | nil => simp at h0
  | cons x rest =>
    have hx : x = b0 := by simpa using h0
    subst hx
    have hc : (true && (lowerStr label == pauliL || lowerStr label == stPauliL)) = true := by
      rcases hl with h | h <;> simp [h]
    constructor
    · intro e he
      unfold query_wikidata_for_coach
      simp [hc, he]
    · intro he
      unfold query_wikidata_for_coach
      simp [hc, he]

/-- C4 (witness): end-to-end scenario D — of two bindings for entity
`"pauli"`, only the second club label contains `"St. Pauli"`, and that second
binding is returned. -/
theorem c4_pauli_disambiguation_witness :
    query_wikidata_for_coach pauliL true
      (Except.ok [⟨['A'], ['c'], []⟩, ⟨stPauliL, ['d'], []⟩]) =
      some (stPauliL, ['d']) :=
  (c4_pauli_disambiguation pauliL [⟨['A'], ['c'], []⟩, ⟨stPauliL, ['d'], []⟩]
      ⟨['A'], ['c'], []⟩ (by decide) (Or.inl (by decide))).1
    ⟨stPauliL, ['d'], []⟩ (by decide)

/-- C5: whenever some club-table key is a substring of the normalized input,
resolution returns a club result, whatever city keys also match: the city
table is only consulted after the club scans fail. -/
theorem c5_club_priority (input : Str) (clubs cities : Table)
    (hclub : clubs.any (fun p => containsSub (normalize_text input) p.1) = true)
    (_hcity : cities.any (fun p => containsSub (normalize_text input) p.1) = true) :
    ∃ l, extract_entity_from_input input clubs cities = some (l, true) := by
  have h1 : (clubs.find? (fun p => containsSub (normalize_text input) p.1)).isSome := by
    rw [List.find?_isSome]
    exact List.any_eq_true.mp hclub
  obtain ⟨q, hq⟩ := Option.isSome_iff_exists.mp h1
  by_cases hp : containsSub (normalize_text input) pauliL = true
  · cases hsp : clubs.find? (fun p => containsSub p.1 stPauliL) with
    | some p => exact ⟨p.2, by simp [extract_entity_from_input, hp, hsp]⟩
    | none => exact ⟨q.2, by simp [extract_entity_from_input, hp, hsp, hq]⟩
  · exact ⟨q.2, by simp [extract_entity_from_input, hp, hq]⟩

/-- C5 (witness): a text matching both a club key and a city key resolves to
the club. -/
theorem c5_club_priority_witness :
    ∃ l, extract_entity_from_input ['b'] [(['b'], ['B'])] [(['b'], ['C'])] =
      some (l, true) :=
  c5_club_priority ['b'] [(['b'], ['B'])] [(['b'], ['C'])] (by decide) (by decide)

/-- C3 (counterexample): the canonical club label `"AB"` is inserted by
`query_wikidata_for_names` (its value list contains it), yet resolving `"AB"`
does not return `("AB", Club)`: the earlier key `"a"` of club `"A"` is a
substring of the normalized text `"ab"` and wins the first-match scan. -/
theorem c3_roundtrip_counterexample :
    (['A', 'B'] ∈ ((query_wikidata_for_names
        [⟨['A'], none, ['X'], none⟩, ⟨['A', 'B'], none, ['Y'], none⟩]).1.map Prod.snd)) ∧
    ¬ (extract_entity_from_input ['A', 'B']
        (query_wikidata_for_names
          [⟨['A'], none, ['X'], none⟩, ⟨['A', 'B'], none, ['Y'], none⟩]).1
        (query_wikidata_for_names
          [⟨['A'], none, ['X'], none⟩, ⟨['A', 'B'], none, ['Y'], none⟩]).2 =
      some (['A', 'B'], true)) := by
  decide

/-- C3 (amended): resolving a canonical label `L` returns `(L, its kind)`
provided `L`'s entry is not shadowed: for a club label, the first club key
containing `"st. pauli"` (relevant only when `normalize L` contains
`"pauli"`) carries value `L` if it exists, and the first club key that is a
substring of `normalize L` carries value `L`; for a city label, the special
case finds no key, no club key is a substring of `normalize L`, and the
first matching city key carries value `L`. -/
theorem c3_roundtrip_amended (clubs cities : Table) (L : Str) (isClub : Bool)
    (hclub : isClub = true →
      (containsSub (normalize_text L) pauliL = true →
        findValIsOrNone (clubs.find? (fun p => containsSub p.1 stPauliL)) L = true) ∧
      (clubs.find? (fun p => containsSub (normalize_text L) p.1)).map Prod.snd = some L)
    (hcity : isClub = false →
      (containsSub (normalize_text L) pauliL = true →
        clubs.find? (fun p => containsSub p.1 stPauliL) = none) ∧
      clubs.find? (fun p => containsSub (normalize_text L) p.1) = none ∧
      (cities.find? (fun p => containsSub (normalize_text L) p.1)).map Prod.snd = some L) :
    extract_entity_from_input L clubs cities = some (L, isClub) := by
  cases isClub with
  | true =>
    obtain ⟨h1, h2⟩ := hclub rfl
    by_cases hp : containsSub (normalize_text L) pauliL = true
    · cases hsp : clubs.find? (fun p => containsSub p.1 stPauliL) with
      | some p =>
        have hv : p.2 = L := by
          have := h1 hp
          rw [hsp] at this
          simpa [findValIsOrNone] using this
        simp [extract_entity_from_input, hp, hsp, hv]
      | none =>
        cases hg : clubs.find? (fun p => containsSub (normalize_text L) p.1) with
        | some q =>
          have hv : q.2 = L := by
            rw [hg] at h2
            simpa using h2
          simp [extract_entity_from_input, hp, hsp, hg, hv]
        | none => rw [hg] at h2; simp at h2
    · cases hg : clubs.find? (fun p => containsSub (normalize_text L) p.1) with
      | some q =>
        have hv : q.2 = L := by
          rw [hg] at h2
          simpa using h2
        simp [extract_entity_from_input, hp, hg, hv]
      | none => rw [hg] at h2; simp at h2
  | false =>
    obtain ⟨h1, h2, h3⟩ := hcity rfl
    cases hy : cities.find? (fun p => containsSub (normalize_text L) p.1) with
    | some q =>
      have hv : q.2 = L := by
        rw [hy] at h3
        simpa using h3
      by_cases hp : containsSub (normalize_text L) pauliL = true
      · simp [extract_entity_from_input, hp, h1 hp, h2, hy, hv]
      · simp [extract_entity_from_input, hp, h2, hy, hv]
    | none => rw [hy] at h3; simp at h3

/-- C3 (witness): the amended round-trip applied to club label `"Bayern"`
in a one-club catalog, and to city label `"Ulm"` in a disjoint catalog. -/
theorem c3_roundtrip_amended_witness :
    extract_entity_from_input ['B', 'a', 'y', 'e', 'r', 'n']
      [(['b', 'a', 'y', 'e', 'r', 'n'], ['B', 'a', 'y', 'e', 'r', 'n'])] [] =
      some (['B', 'a', 'y', 'e', 'r', 'n'], true) ∧
    extract_entity_from_input ['U', 'l', 'm']
      [(['b', 'a', 'y', 'e', 'r', 'n'], ['B', 'a', 'y', 'e', 'r', 'n'])]
      [(['u', 'l', 'm'], ['U', 'l', 'm'])] =
      some (['U', 'l', 'm'], false) :=
  ⟨c3_roundtrip_amended [(['b', 'a', 'y', 'e', 'r', 'n'], ['B', 'a', 'y', 'e', 'r', 'n'])]
      [] ['B', 'a', 'y', 'e', 'r', 'n'] true
      (fun _ => ⟨fun hpau => by revert hpau; decide, by decide⟩)
      (fun hf => by cases hf),
    c3_roundtrip_amended [(['b', 'a', 'y', 'e', 'r', 'n'], ['B', 'a', 'y', 'e', 'r', 'n'])]
      [(['u', 'l', 'm'], ['U', 'l', 'm'])] ['U', 'l', 'm'] false
      (fun hf => by cases hf)
      (fun _ => ⟨fun hpau => by revert hpau; decide, by decide, by decide⟩)⟩

/-- C10 (counterexample): with the catalog built from the single club row
`"Bayern"` (city `"M"`), the user input `"Bayern"` resolves to the label
`"Bayern"` — which is exactly the raw user text, refuting the clause that the
returned label is never the raw user text itself. -/
theorem c10_label_counterexample :
    ¬ (∀ l k, extract_entity_from_input ['B', 'a', 'y', 'e', 'r', 'n']
        (query_wikidata_for_names [⟨['B', 'a', 'y', 'e', 'r', 'n'], none, ['M'], none⟩]).1
        (query_wikidata_for_names [⟨['B', 'a', 'y', 'e', 'r', 'n'], none, ['M'], none⟩]).2 =
          some (l, k) →
      l ≠ ['B', 'a', 'y', 'e', 'r', 'n']) := by
  intro h
  exact h ['B', 'a', 'y', 'e', 'r', 'n'] true (by decide) rfl

/-- C10 (amended): whenever resolution returns a non-`none` result, the label
is a canonical value stored in the club table for a club result, and one
stored in the city table for a city result (though it may coincide with the
user text when that text happens to equal a canonical label). -/
theorem c10_label_from_catalog (input : Str) (clubs cities : Table) (l : Str) (k : Bool)
    (h : extract_entity_from_input input clubs cities = some (l, k)) :
    l ∈ (if k then clubs else cities).map Prod.snd := by
  have hgen : ∀ {u : Str},
      (match clubs.find? (fun p => containsSub u p.1) with
        | some p => some (p.2, true)
        | none => (cities.find? (fun p => containsSub u p.1)).map (fun p => (p.2, false)))
        = some (l, k) →
      l ∈ (if k then clubs else cities).map Prod.snd := by
    intro u hg
    cases hc : clubs.find? (fun p => containsSub u p.1) with
    | some p =>
      rw [hc] at hg
      have h1 : p.2 = l ∧ true = k := by simpa using hg
      rw [← h1.1, ← h1.2]
      simp only [if_true]
      exact List.mem_map_of_mem Prod.snd (List.mem_of_find?_eq_some hc)
    | none =>
      rw [hc] at hg
      cases hy : cities.find? (fun p => containsSub u p.1) with
      | some q =>
        rw [hy] at hg
        have h1 : q.2 = l ∧ false = k := by simpa using hg
        rw [← h1.1, ← h1.2]
        simp only [Bool.false_eq_true, if_false]
        exact List.mem_map_of_mem Prod.snd (List.mem_of_find?_eq_some hy)
      | none => rw [hy] at hg; simp at hg
  simp only [extract_entity_from_input] at h
  by_cases hp : containsSub (normalize_text input) pauliL = true
  · rw [if_pos hp] at h
    cases hs : clubs.find? (fun p => containsSub p.1 stPauliL) with
    | some p =>
      rw [hs] at h
      have h1 : p.2 = l ∧ true = k := by simpa using h
      rw [← h1.1, ← h1.2]
      simp only [if_true]
      exact List.mem_map_of_mem Prod.snd (List.mem_of_find?_eq_some hs)
    | none =>
      rw [hs] at h
      exact hgen h
  · rw [if_neg hp] at h
    exact hgen h

/-- C10 (witness): the membership invariant applied to the input `"b"` over a
one-entry club table. -/
theorem c10_label_from_catalog_witness :
    ['B'] ∈ (if true then [((['b'] : Str), (['B'] : Str))] else []).map Prod.snd :=
  c10_label_from_catalog ['b'] [(['b'], ['B'])] [] ['B'] true (by decide)

theorem wsRuns_nil : wsRuns [] = [] := rfl

theorem wsRuns_single_ws {x : Char} (hx : pyIsSpace x = true) :
    wsRuns [x] = wsTok := by
  show (if pyIsSpace x then wsTok else x :: wsRuns []) = wsTok
  exact if_pos hx

theorem wsRuns_cons_ws_ws {x y : Char} {t : Str} (hx : pyIsSpace x = true)
    (hy : pyIsSpace y = true) : wsRuns (x :: y :: t) = wsRuns (y :: t) := by
  show (if pyIsSpace x then
          if pyIsSpace y then wsRuns (y :: t) else wsTok ++ wsRuns (y :: t)
        else x :: wsRuns (y :: t)) = wsRuns (y :: t)
  rw [if_pos hx, if_pos hy]

theorem wsRuns_cons_ws_nonws {x c : Char} {t : Str} (hx : pyIsSpace x = true)
    (hc : pyIsSpace c = false) : wsRuns (x :: c :: t) = wsTok ++ wsRuns (c :: t) := by
  show (if pyIsSpace x then
          if pyIsSpace c then wsRuns (c :: t) else wsTok ++ wsRuns (c :: t)
        else x :: wsRuns (c :: t)) = wsTok ++ wsRuns (c :: t)
  rw [if_pos hx, if_neg (by simp [hc])]

theorem wsRuns_cons_nonws {c : Char} {t : Str} (hc : pyIsSpace c = false) :
    wsRuns (c :: t) = c :: wsRuns t := by
  cases t with
  | nil =>
    show (if pyIsSpace c then wsTok else c :: wsRuns []) = c :: wsRuns []
    exact if_neg (by simp [hc])
  | cons d t2 =>
    show (if pyIsSpace c then
            if pyIsSpace d then wsRuns (d :: t2) else wsTok ++ wsRuns (d :: t2)
          else c :: wsRuns (d :: t2)) = c :: wsRuns (d :: t2)
    exact if_neg (by simp [hc])

theorem wsRuns_of_noWS {s : Str} (h : noWS s = true) : wsRuns s = s := by
  induction s with
  | nil => rfl
  | cons a t ih =>
    simp only [noWS, List.all_cons, Bool.and_eq_true, Bool.not_eq_true'] at h
    obtain ⟨ha, ht⟩ := h
    rw [wsRuns_cons_nonws ha, ih ht]

theorem wsRuns_run_append {b : Str} (hb : headNonWS b = true) :
    ∀ {w : Str}, allWS w = true → w ≠ [] → wsRuns (w ++ b) = wsTok ++ wsRuns b := by
  intro w
  induction w with
  | nil => exact fun _ hne => absurd rfl hne
  | cons x w2 ih =>
    intro hw _
    simp only [allWS, List.all_cons, Bool.and_eq_true] at hw
    obtain ⟨hx, hw2⟩ := hw
    cases w2 with
    | nil =>
      cases b with
      | nil => simp [wsRuns_single_ws hx, wsRuns_nil]
      | cons c bt =>
        have hc : pyIsSpace c = false := by simpa [headNonWS] using hb
        simpa using wsRuns_cons_ws_nonws hx hc
    | cons y w3 =>
      have hy : pyIsSpace y = true := by
        simp only [List.all_cons, Bool.and_eq_true] at hw2
        exact hw2.1
      have h1 : wsRuns ((x :: y :: w3) ++ b) = wsRuns ((y :: w3) ++ b) := by
        simpa using wsRuns_cons_ws_ws hx hy
      rw [h1, ih hw2 (List.cons_ne_nil y w3)]

theorem flatMap_escChar (s : Str) :
    (s.flatMap escBack).flatMap escQuote = s.flatMap escChar := by
  rw [List.flatMap_assoc]
  rfl

theorem escChar_eq_of_plain {c : Char} (hb : c ≠ bslash) (hq : c ≠ dquote) :
    escChar c = [c] := by
  simp [escChar, escBack, escQuote, hb, hq]

theorem ws_ne_special {c : Char} (h : pyIsSpace c = true) : c ≠ bslash ∧ c ≠ dquote := by
  simp only [pyIsSpace, Bool.or_eq_true, beq_iff_eq] at h
  rcases h with ((((h | h) | h) | h) | h) | h <;> subst h <;> exact ⟨by decide, by decide⟩

theorem flatMap_escChar_ws {w : Str} (h : allWS w = true) : w.flatMap escChar = w := by
  induction w with
  | nil => rfl
  | cons x t ih =>
    simp only [allWS, List.all_cons, Bool.and_eq_true] at h
    obtain ⟨hx, ht⟩ := h
    obtain ⟨hb, hq⟩ := ws_ne_special hx
    rw [List.flatMap_cons, escChar_eq_of_plain hb hq, ih ht]
    rfl

theorem noWS_escChar {c : Char} (h : pyIsSpace c = false) : noWS (escChar c) = true := by
  by_cases hb : c = bslash
  · subst hb; decide
  · by_cases hq : c = dquote
    · subst hq; decide
    · rw [escChar_eq_of_plain hb hq]
      simp [noWS, h]

theorem noWS_flatMap {s : Str} (h : noWS s = true) : noWS (s.flatMap escChar) = true := by
  induction s with
  | nil => rfl
  | cons a t ih =>
    simp only [noWS, List.all_cons, Bool.and_eq_true, Bool.not_eq_true'] at h
    obtain ⟨ha, ht⟩ := h
    rw [List.flatMap_cons]
    have h1 := noWS_escChar ha
    have h2 := ih ht
    simp only [noWS, List.all_append, Bool.and_eq_true]
    exact ⟨h1, h2⟩

theorem headNonWS_flatMap {b : Str} (h : headNonWS b = true) :
    headNonWS (b.flatMap escChar) = true := by
  cases b with
  | nil => rfl
  | cons c t =>
    have hc : pyIsSpace c = false := by simpa [headNonWS] using h
    rw [List.flatMap_cons]
    by_cases hb : c = bslash
    · subst hb
      have he : escChar bslash = [bslash, bslash] := by decide
      rw [he]
      show (!pyIsSpace bslash) = true
      decide
    · by_cases hq : c = dquote
      · subst hq
        have he : escChar dquote = [bslash, dquote] := by decide
        rw [he]
        show (!pyIsSpace bslash) = true
        decide
      · rw [escChar_eq_of_plain hb hq]
        show (!pyIsSpace c) = true
        simp [hc]

theorem wsRuns_split {w b : Str} : ∀ {a : Str}, noWS a = true → allWS w = true →
    w ≠ [] → headNonWS b = true →
    wsRuns (a ++ w ++ b) = a ++ wsTok ++ wsRuns b := by
  intro a
  induction a with
  | nil =>
    intro _ hw hne hb
    simpa using wsRuns_run_append hb hw hne
  | cons x a2 ih =>
    intro ha hw hne hb
    simp only [noWS, List.all_cons, Bool.and_eq_true, Bool.not_eq_true'] at ha
    obtain ⟨hx, ha2⟩ := ha
    have h1 : wsRuns ((x :: a2) ++ w ++ b) = x :: wsRuns (a2 ++ w ++ b) := by
      simpa using wsRuns_cons_nonws hx
    rw [h1, ih ha2 hw hne hb]
    simp

/-- C6 (counterexample): the whitespace-run replacement token emitted by
`prepare_regex_for_sparql` has four characters (two backslashes, `s`, `+`),
not five as the claim states; the single-space input shows it. -/
theorem c6_token_length_counterexample :
    prepare_regex_for_sparql [' '] = wsTok ∧
    (prepare_regex_for_sparql [' ']).length = 4 ∧
    (prepare_regex_for_sparql [' ']).length ≠ 5 := by
  decide

/-- C6 (amended): `prepare_regex_for_sparql` escapes backslashes first, then
double quotes (per character, `escChar`), replaces every maximal whitespace
run by the four-character token `\\s+`, and performs no other transformation:
on whitespace-free text it is exactly the per-character escaping, around each
whitespace run it splits as escaped-prefix, token, recursively-processed
rest, and a character that is no backslash, quote or whitespace is kept
unchanged. -/
theorem c6_escape_amended :
    (∀ s : Str, noWS s = true → prepare_regex_for_sparql s = s.flatMap escChar) ∧
    (∀ a w b : Str, noWS a = true → allWS w = true → w ≠ [] → headNonWS b = true →
      prepare_regex_for_sparql (a ++ w ++ b) =
        a.flatMap escChar ++ wsTok ++ prepare_regex_for_sparql b) ∧
    (∀ c : Char, pyIsSpace c = false → c ≠ bslash → c ≠ dquote → escChar c = [c]) := by
  refine ⟨?_, ?_, ?_⟩
  · intro s hs
    unfold prepare_regex_for_sparql
    rw [flatMap_escChar, wsRuns_of_noWS (noWS_flatMap hs)]
  · intro a w b ha hw hne hb
    unfold prepare_regex_for_sparql
    rw [flatMap_escChar, flatMap_escChar, List.flatMap_append, List.flatMap_append,
      flatMap_escChar_ws hw]
    exact wsRuns_split (noWS_flatMap ha) hw hne (headNonWS_flatMap hb)
  · intro c _ hb hq
    exact escChar_eq_of_plain hb hq

/-- C6 (witness): the characterization applied to the text `"a b"`. -/
theorem c6_escape_amended_witness :
    prepare_regex_for_sparql (['a'] ++ [' '] ++ ['b']) =
      (['a'] : Str).flatMap escChar ++ wsTok ++ prepare_regex_for_sparql ['b'] :=
  c6_escape_amended.2.1 ['a'] [' '] ['b'] (by decide) (by decide) (by decide) (by decide)

theorem pyToLower_eq_toLower (c : Char) : pyToLower c = Char.toLower c := by
  unfold pyToLower Char.toLower
  rfl

theorem dropLeading_eq_dropWhile (s : Str) : dropLeading s = s.dropWhile pyIsSpace := by
  induction s with
  | nil => rfl
  | cons a t ih =>
    unfold dropLeading
    rw [List.dropWhile_cons]
    by_cases ha : pyIsSpace a
    · rw [if_pos ha, if_pos ha, ih]
    · rw [if_neg ha, if_neg ha]

theorem pyStrip_eq_stripSpec (u : Str) : pyStrip u = stripSpec u := by
  unfold pyStrip stripSpec
  rw [dropLeading_eq_dropWhile, dropLeading_eq_dropWhile]

theorem startsWith_iff_take {p : Str} : ∀ {s : Str},
    startsWithL s p = true ↔ s.take p.length = p := by
  induction p with
  | nil => intro s; simp [startsWithL]
  | cons b t ih =>
    intro s
    cases s with
    | nil => simp [startsWithL]
    | cons a s2 => simp [startsWithL, List.take_succ_cons, ih]

theorem stripPoss_eq_spec (t : Str) : stripPoss t = stripSuffixSpec t := by
  unfold stripPoss stripSuffixSpec
  refine if_congr ?_ rfl (if_congr ?_ rfl rfl)
  · show endsWithL t [apos, 's'] = true ↔ t.reverse.take 2 = ['s', apos]
    unfold endsWithL
    have hr : ([apos, 's'] : Str).reverse = ['s', apos] := rfl
    rw [hr]
    exact startsWith_iff_take
  · show endsWithL t ['s'] = true ↔ t.reverse.take 1 = ['s']
    unfold endsWithL
    have hr : (['s'] : Str).reverse = ['s'] := rfl
    rw [hr]
    exact startsWith_iff_take

/-- C7: the source normalization agrees everywhere with the function written
from the spec's words — lower-case, strip surrounding whitespace, then strip
one trailing `'s` (checked first) or one trailing bare `s` — and it maps the
empty string to the empty string; it is a total function by construction. -/
theorem c7_normalize_matches_spec :
    (∀ s : Str, normalize_text s = normalizeSpec s) ∧ normalize_text [] = [] := by
  constructor
  · intro s
    unfold normalize_text normalizeSpec lowerStr
    rw [List.map_congr_left (fun a _ => pyToLower_eq_toLower a),
      pyStrip_eq_stripSpec, stripPoss_eq_spec]
  · rfl
